import Mathlib

/-!
# Verification of the parse-server data-access core

Shallow embedding of `src/Controllers/DatabaseController.js`,
`src/Routers/GlobalConfigRouter.js` and the unnamed `MongoCollection`
source file, together with theorems settling the frozen claims about the
natural-language specification.

JavaScript values that flow through queries, update payloads and store
documents are modelled by the inductive type `JVal`.  Promise-chained
operations are modelled as pure functions returning an `Except` result
paired with the ordered list of adapter events the chain issues; the
single-threaded cooperative scheduling of the JS runtime makes this
sequential trace model faithful for every property considered here.
-/

namespace ParseCore

/-- A JavaScript value as it appears in queries, REST update payloads and
store documents: `undef` is JavaScript `undefined`. Objects are ordered
association lists with pairwise-distinct keys, matching JS object key
semantics. -/
inductive JVal where
  | null : JVal
  | undef : JVal
  | bool : Bool → JVal
  | num : Int → JVal
  | str : String → JVal
  | arr : List JVal → JVal
  | obj : List (String × JVal) → JVal
deriving Repr

/-- First binding of a key in an association list (JS property lookup). -/
def lookupF : List (String × JVal) → String → Option JVal
  | [], _ => none
  | (k, v) :: rest, key => if k == key then some v else lookupF rest key

/-- JS property read `v[key]`: `some` value on an object that has the key,
`none` otherwise (primitive receivers and missing keys both read as
`undefined`; the string index properties of JS strings are not modelled,
no claim exercises them). -/
def JVal.get : JVal → String → Option JVal
  | .obj fs, key => lookupF fs key
  | _, _ => none

/-- JS property read defaulting to `undefined`. -/
def JVal.getD (v : JVal) (key : String) : JVal :=
  ((v.get key).getD .undef)

/-- JS truthiness of a value. -/
def JVal.truthy : JVal → Bool
  | .null => false
  | .undef => false
  | .bool b => b
  | .num n => n != 0
  | .str s => s != ""
  | .arr _ => true
  | .obj _ => true

/-- Assignment to a key of an association list: updates the binding in
place when the key is present (JS keeps the original insertion position),
appends it otherwise. -/
def setF : List (String × JVal) → String → JVal → List (String × JVal)
  | [], key, v => [(key, v)]
  | (k, w) :: rest, key, v =>
    if k == key then (k, v) :: rest else (k, w) :: setF rest key v

/-- JS property write `v[key] = x` on an object; writes to primitive
receivers are discarded, as in (non-strict) JS. -/
def JVal.set : JVal → String → JVal → JVal
  | .obj fs, key, v => .obj (setF fs key v)
  | other, _, _ => other

/-- JS `delete v[key]`. -/
def JVal.del : JVal → String → JVal
  | .obj fs, key => .obj (fs.filter (fun kv => kv.1 != key))
  | other, _ => other

/-- `Object.keys`, in insertion order; `[]` on non-objects. -/
def JVal.keys : JVal → List String
  | .obj fs => fs.map Prod.fst
  | _ => []

/-- The element list of an array value, `[]` otherwise.  The JS source
iterates (`.map`, `for...of`) such values directly and would throw a
`TypeError` on a truthy non-array; well-formedness hypotheses on the
theorems keep quantified inputs inside the array case. -/
def asArr : JVal → List JVal
  | .arr xs => xs
  | _ => []

/-- The character content of a string value, `""` otherwise (JS would
coerce other values in the template-literal positions where this is
used; no claim exercises a non-string there). -/
def asStr : JVal → String
  | .str s => s
  | _ => ""

/-- The regex `^relation<(.*)>$` of the source applied to a declared
schema type: the related class name when the type is a relation type. -/
def relationClassOf : String → Option String :=
  fun t =>
    if t.startsWith "relation<" && t.endsWith ">" then
      some ((t.drop 9).dropRight 1)
    else
      none

/-! ## Resilient collection (`MongoCollection`, unnamed source file)

`MongoCollection.find` runs `_rawFind` and, on a missing-geo-index
error, creates a 2d index on the field named in the error message and
retries the raw find once.  The two regex tests the source performs on
`error.message` (`/unable to find index for .geoNear/` and
`/field=([A-Za-z_0-9]+) /`) are carried on the error value as the
outcome of each match — a faithful abstraction of the string tests. -/

/-- A MongoDB driver error as observed by `MongoCollection.find`:
`code` is `error.code`; `geoNearMatch` is whether `error.message`
matches `/unable to find index for .geoNear/`; `fieldMatch` is the first
capture of `/field=([A-Za-z_0-9]+) /` on `error.message` when that regex
matches. -/
structure MongoError where
  code : Int
  geoNearMatch : Bool
  fieldMatch : Option String
deriving Repr

/-- Outcome of `MongoCollection.find`: the documents, a propagated
`MongoError`, or the `TypeError` the source raises by indexing the
`null` result of a failed `field=` regex match. -/
inductive FindResult where
  | ok : List JVal → FindResult
  | err : MongoError → FindResult
  | typeError : FindResult
deriving Repr

/-- Adapter-level calls issued by `MongoCollection.find`. -/
inductive MEvent where
  | rawFind : MEvent
  | createIndex : String → String → MEvent
deriving Repr

/-- The behaviour of the underlying raw collection for one
`MongoCollection.find` call: the outcome of the first `_rawFind` and the
outcome of a `_rawFind` issued after `createIndex`. -/
structure RawColl where
  firstFind : Except MongoError (List JVal)
  findAfterIndex : Except MongoError (List JVal)

/-- `MongoCollection.find` (unnamed source file, lines 16–37): run
`_rawFind`; on an error whose code is 17007 and whose message matches
the geoNear regex, extract the field name, create a `'2d'` index on it
and retry the raw find exactly once, propagating any other error — and
any error of the retried find — unchanged. -/
def MongoCollection.find (c : RawColl) : FindResult × List MEvent :=
  match c.firstFind with
  | .ok docs => (.ok docs, [.rawFind])
  | .error e =>
    if e.code != 17007 || !e.geoNearMatch then
      (.err e, [.rawFind])
    else
      match e.fieldMatch with
      | none => (.typeError, [.rawFind])
      | some key =>
        if key == "" then
          (.err e, [.rawFind])
        else
          match c.findAfterIndex with
          | .ok docs => (.ok docs, [.rawFind, .createIndex key "2d", .rawFind])
          | .error e2 => (.err e2, [.rawFind, .createIndex key "2d", .rawFind])

/-! ## Schema cache single-flight machine (`loadSchema`)

`DatabaseController.loadSchema` stores the in-flight promise in
`this.schemaPromise`:

* a call finding `schemaPromise` unset starts a new chain
  `collection('_SCHEMA').then(coll => { delete this.schemaPromise;
  return Schema.load(coll); })` and stores it;
* a call finding it set attaches to the stored chain (with the default
  acceptor it simply returns the resolved schema).

The cooperative interleaving of calls and promise resolutions is
modelled as a small-step machine over explicit events.  `Schema.load`
— the underlying read of the schema collection — is invoked exactly
when a chain's collection promise resolves, which is also the moment
the source executes `delete this.schemaPromise`. -/

/-- State of the schema-cache machine.  Chains are numbered in creation
order; `reads` counts `Schema.load` invocations (underlying reads of the
schema collection). -/
structure CacheState where
  schemaPromise : Option Nat
  nextId : Nat
  pendingColl : List Nat
  pendingLoad : List Nat
  resolvedChains : List Nat
  reads : Nat
deriving Repr, DecidableEq

/-- The machine's initial state: no load has ever been requested. -/
def initCache : CacheState :=
  { schemaPromise := none, nextId := 0, pendingColl := [], pendingLoad := [],
    resolvedChains := [], reads := 0 }

/-- Interleaving events: `call` is a `loadSchema()` invocation with the
default acceptor; `collResolve i` is the resolution of chain `i`'s
`collection('_SCHEMA')` promise; `loadResolve i` is the resolution of
chain `i`'s `Schema.load` read.  A `call` that finds a stored promise
attaches to it and changes no state. -/
inductive CEvent where
  | call : CEvent
  | collResolve : Nat → CEvent
  | loadResolve : Nat → CEvent
deriving Repr, DecidableEq

/-- One step of the schema-cache machine; `none` when the event is not
enabled (resolving a promise that is not pending). On `collResolve` the
source performs `delete this.schemaPromise` unconditionally and then
invokes `Schema.load(coll)`, so the stored promise is cleared and the
read counter advances at that moment. -/
def cacheStep (s : CacheState) : CEvent → Option CacheState
  | .call =>
    match s.schemaPromise with
    | none =>
      some { s with schemaPromise := some s.nextId, nextId := s.nextId + 1,
                    pendingColl := s.pendingColl ++ [s.nextId] }
    | some _ => some s
  | .collResolve i =>
    if i ∈ s.pendingColl then
      some { s with pendingColl := s.pendingColl.erase i,
                    schemaPromise := none,
                    pendingLoad := s.pendingLoad ++ [i],
                    reads := s.reads + 1 }
    else none
  | .loadResolve i =>
    if i ∈ s.pendingLoad then
      some { s with pendingLoad := s.pendingLoad.erase i,
                    resolvedChains := s.resolvedChains ++ [i] }
    else none

/-- Run the schema-cache machine over a list of events. -/
def cacheRun (s : CacheState) : List CEvent → Option CacheState
  | [] => some s
  | e :: es =>
    match cacheStep s e with
    | none => none
    | some s' => cacheRun s' es

/-- Whether an event is the resolution of a chain's schema read — the
moment the attached `loadSchema` callers resolve. -/
def isLoadResolve : CEvent → Bool
  | .loadResolve _ => true
  | _ => false

/-- Whether an event is a `loadSchema` invocation. -/
def isCall : CEvent → Bool
  | .call => true
  | _ => false

/-- Every `loadSchema` invocation of the trace is issued before any load
resolves: no `call` occurs at or after the first `loadResolve`. -/
def callsPrecedeResolutions (tr : List CEvent) : Bool :=
  (tr.dropWhile (fun e => !isLoadResolve e)).all (fun e => !isCall e)

/-- An interleaving in which both `loadSchema` calls are issued before
either load resolves, yet the second call arrives after the first
chain's collection promise has resolved (and hence after
`delete this.schemaPromise` has run). -/
def schemaRaceTrace : List CEvent :=
  [.call, .collResolve 0, .call, .collResolve 1, .loadResolve 0, .loadResolve 1]

/-! ## The DatabaseController embedding

Each promise-chained operation of `DatabaseController` becomes a pure
function returning its `Except` outcome paired with the ordered trace of
adapter calls.  External collaborators whose sources are not part of the
repository snapshot (the `Schema` object's pure lookups, the pure
`transform` translators, and the adapter's per-collection results) are
parameters of an `Env`; the control flow, the permission gate, the
relation bookkeeping and the error policy are translated from
`DatabaseController.js` itself.  Within an operation, `loadSchema`
contributes a `.schemaLoad` event and yields the environment's schema;
its acceptor-gated reload and promise sharing are modelled separately
by the schema-cache machine above (an acceptor-triggered reload would
only add another `.schemaLoad` event, which no claim distinguishes). -/

/-- The stable error classes raised by the data-access layer. -/
inductive PErr where
  | invalidClassName
  | permissionDenied
  | objectNotFound
deriving Repr, DecidableEq

/-- Adapter calls observable during one operation: schema-collection
loads, join-table (relation) reads and writes, and store-native calls on
the class collection. -/
inductive Event where
  | schemaLoad : Event
  | joinRead : String → Event
  | joinWrite : String → JVal → JVal → Event
  | joinRemove : String → JVal → JVal → Event
  | storeFind : String → JVal → Event
  | storeCount : String → JVal → Event
  | storeInsert : String → JVal → Event
  | storeFindOneAndUpdate : String → JVal → JVal → Event
  | storeRemove : String → JVal → Event
deriving Repr

/-- Store-native query options assembled by `find`. -/
structure MongoOptions where
  skip : Option Int := none
  limit : Option Int := none
  sort : Option (List (String × Int)) := none

/-- The options bag of the public operations.  `acl = none` models an
options object without an `acl` key (a privileged/master caller);
`acl = some g` models `{acl: g}`.  (An explicit `{acl: null}` is not
representable; no claim exercises it.) -/
structure Options where
  acl : Option (List String) := none
  skip : Option Int := none
  limit : Option Int := none
  sort : Option (List (String × Int)) := none
  count : Bool := false

/-- External collaborators of `DatabaseController`, as pure parameters:
`Schema`'s lookups and permission verdict (`validatePermission` is
`true` exactly when the action is allowed), the pure `transform`
translators, and the adapter's per-collection results (`joinFind` is the
result list of a raw `find` on a join collection; `findOneAndUpdateRes`
is the post-mutation document, `none` when no document matched;
`removeRes` is the reported removed-document count `resp.result.n`). -/
structure Env where
  classNameIsValid : String → Bool
  validatePermission : String → List String → String → Bool
  getExpectedType : String → String → Option String
  hasKeys : String → List String → Bool
  joinFind : String → JVal → List JVal
  transformKey : String → String → String
  transformWhere : String → JVal → JVal
  transformCreate : String → JVal → JVal
  untransform : String → JVal → JVal
  findOneAndUpdateRes : String → JVal → JVal → Option JVal
  removeRes : String → JVal → Nat
  findRes : String → JVal → MongoOptions → List JVal
  countRes : String → JVal → MongoOptions → Nat

/-- `joinTableName` (line 540): the persisted join-collection naming
contract; `addRelation`/`removeRelation` build the same string inline. -/
def joinTableName (className key : String) : String :=
  "_Join:" ++ key ++ ":" ++ className

/-- Modelled from the spec: `transform.transformUpdate`
(`src/transform.js` is not among the provided sources).  Update payloads
are tagged-variant operators dispatched on `__op`; the translator "maps
each variant to the store-native update primitive": `Increment(amount)`
becomes a member of the store's `$inc` document, `Delete` of `$unset`,
and a plain field value of `$set`. -/
def transformUpdate (update : JVal) : JVal :=
  let step := fun (acc : List (String × JVal) × List (String × JVal) × List (String × JVal))
                  (kv : String × JVal) =>
    let (incs, unsets, sets) := acc
    match kv.2.get "__op" with
    | some (.str "Increment") => (incs ++ [(kv.1, kv.2.getD "amount")], unsets, sets)
    | some (.str "Delete") => (incs, unsets ++ [(kv.1, .num 1)], sets)
    | _ => (incs, unsets, sets ++ [kv])
  let folded := (match update with | .obj fs => fs | _ => []).foldl step ([], [], [])
  JVal.obj
    ((if folded.1.isEmpty then [] else [("$inc", JVal.obj folded.1)]) ++
     (if folded.2.1.isEmpty then [] else [("$unset", JVal.obj folded.2.1)]) ++
     (if folded.2.2.isEmpty then [] else [("$set", JVal.obj folded.2.2)]))

/-- The `$or` of write-permission clauses conjoined to a non-privileged
mutation's query (lines 157–165 and 288–296): `_wperm` absent, or
`_wperm` containing one of the caller's groups. -/
def writePermClauses (acl : List String) : List JVal :=
  JVal.obj [("_wperm", .obj [("$exists", .bool false)])] ::
    acl.map (fun entry => JVal.obj [("_wperm", .obj [("$in", .arr [.str entry])])])

/-- The `$or` of read-permission clauses conjoined to a non-privileged
find's query (lines 516–524): `_rperm` absent, `_rperm` containing
`"*"`, or `_rperm` containing one of the caller's groups. -/
def readPermClauses (aclGroup : List String) : List JVal :=
  JVal.obj [("_rperm", .obj [("$exists", .bool false)])] ::
    JVal.obj [("_rperm", .obj [("$in", .arr [.str "*"])])] ::
    aclGroup.map (fun acl => JVal.obj [("_rperm", .obj [("$in", .arr [.str acl])])])

namespace DBC

/-- `addRelation` (lines 237–247): upsert of `{relatedId, owningId}`
into the join collection; `collection()` raises `InvalidClassName`
synchronously when the join-collection name is rejected. -/
def addRelation (env : Env) (key className : String) (fromId toId : JVal) :
    Option PErr × List Event :=
  let jt := joinTableName className key
  if env.classNameIsValid jt then
    (none, [.joinWrite jt fromId toId])
  else
    (some .invalidClassName, [])

/-- `removeRelation` (lines 252–262): exact-match removal of the edge
document from the join collection. -/
def removeRelation (env : Env) (key className : String) (fromId toId : JVal) :
    Option PErr × List Event :=
  let jt := joinTableName className key
  if env.classNameIsValid jt then
    (none, [.joinRemove jt fromId toId])
  else
    (some .invalidClassName, [])

end DBC

/-- A value found by `lookupF` is structurally smaller than the list. -/
theorem sizeOf_lookupF {fs : List (String × JVal)} {key : String} {v : JVal}
    (h : lookupF fs key = some v) : sizeOf v < sizeOf fs := by
  induction fs with
  | nil => simp [lookupF] at h
  | cons kv rest ih =>
    rw [lookupF] at h
    by_cases hk : kv.1 == key
    · simp [hk] at h
      subst h
      cases kv with
      | mk k w => simp only [Prod.mk.sizeOf_spec, List.cons.sizeOf_spec]; omega
    · simp [hk] at h
      have := ih h
      simp only [List.cons.sizeOf_spec]
      omega

/-- A property read is structurally smaller than its receiver. -/
theorem sizeOf_get {q : JVal} {key : String} {v : JVal}
    (h : q.get key = some v) : sizeOf v < sizeOf q := by
  cases q <;> simp [JVal.get] at h
  case obj fs =>
    have := sizeOf_lookupF h
    simp only [JVal.obj.sizeOf_spec]
    omega

namespace DBC

mutual

/-- The `process` closure of `handleRelationUpdates` (lines 197–224)
applied to one update operator under top-level key `key`: emits the
scheduled edge mutations for `AddRelation`/`RemoveRelation` operators
(recursing through `Batch` composites), records `key` in `deleteMe`
for each relation operator found, and stops at the first synchronous
error.  (A `Batch` whose `ops` — or a relation operator whose
`objects` — is not an array throws a `TypeError` in JS; such payloads
sit outside the well-formedness hypotheses of the theorems.) -/
def processOp (env : Env) (className : String) (oid : JVal) (key : String) (op : JVal) :
    Option PErr × List Event × List String :=
  if !op.truthy then (none, [], [])
  else
    match op.get "__op" with
    | some (.str "AddRelation") =>
      let folded := (asArr (op.getD "objects")).foldl
        (fun (acc : Option PErr × List Event) object =>
          match acc with
          | (some e, evs) => (some e, evs)
          | (none, evs) =>
            let (oe, evs2) := addRelation env key className oid (object.getD "objectId")
            (oe, evs ++ evs2)) (none, [])
      (folded.1, folded.2, [key])
    | some (.str "RemoveRelation") =>
      let folded := (asArr (op.getD "objects")).foldl
        (fun (acc : Option PErr × List Event) object =>
          match acc with
          | (some e, evs) => (some e, evs)
          | (none, evs) =>
            let (oe, evs2) := removeRelation env key className oid (object.getD "objectId")
            (oe, evs ++ evs2)) (none, [])
      (folded.1, folded.2, [key])
    | some (.str "Batch") =>
      match h : op.get "ops" with
      | some (.arr ops) => processOps env className oid key ops
      | _ => (none, [], [])
    | _ => (none, [], [])
termination_by sizeOf op
decreasing_by
  have h2 : sizeOf (JVal.arr ops) < sizeOf op := sizeOf_get h
  simp only [JVal.arr.sizeOf_spec] at h2
  omega

/-- `for (var x of op.ops) process(x, key)`: sequential processing of a
`Batch` operator's member list, aborting at a synchronous error. -/
def processOps (env : Env) (className : String) (oid : JVal) (key : String) :
    List JVal → Option PErr × List Event × List String
  | [] => (none, [], [])
  | x :: xs =>
    match processOp env className oid key x with
    | (some e, evs, dm) => (some e, evs, dm)
    | (none, evs, dm) =>
      match processOps env className oid key xs with
      | (oe, evs2, dm2) => (oe, evs ++ evs2, dm ++ dm2)
termination_by l => sizeOf l
decreasing_by
  · simp only [List.cons.sizeOf_spec]
    omega
  · simp only [List.cons.sizeOf_spec]
    omega

end

/-- In the `AddRelation` case one `deleteMe` entry is recorded per
operator, so `processOp` never touches `deleteMe` order: the projection
used by `handleRelationUpdates`. -/
def processDeleteMe (env : Env) (className : String) (oid : JVal) (key : String) (op : JVal) :
    List String :=
  (processOp env className oid key op).2.2

/-- `handleRelationUpdates` (lines 190–233): resolves the owning id from
the update payload's `objectId` (falling back to the supplied one),
runs `process` over every top-level key, and — when no scheduled edge
mutation failed synchronously — deletes every key recorded in
`deleteMe` from the update payload, returning the mutated payload. -/
def handleRelationUpdates (env : Env) (className : String) (objectId : JVal) (update : JVal) :
    Except PErr JVal × List Event :=
  let oid := if (update.getD "objectId").truthy then update.getD "objectId" else objectId
  let folded := (match update with | .obj fs => fs | _ => []).foldl
    (fun (acc : Option PErr × List Event × List String) (kv : String × JVal) =>
      match acc with
      | (some e, evs, dm) => (some e, evs, dm)
      | (none, evs, dm) =>
        let (oe, evs2, dm2) := processOp env className oid kv.1 kv.2
        (oe, evs ++ evs2, dm ++ dm2)) (none, [], [])
  match folded.1 with
  | some e => (.error e, folded.2.1)
  | none => (.ok (folded.2.2.foldl (fun q k => q.del k) update), folded.2.1)

/-- `relatedIds` (lines 375–379): all related ids for one owning id,
read from the join collection. -/
def relatedIds (env : Env) (className key : String) (owningId : JVal) :
    List JVal × List Event :=
  let table := joinTableName className key
  ((env.joinFind table (.obj [("owningId", owningId)])).map (fun r => r.getD "relatedId"),
   [.joinRead table])

/-- `owningIds` (lines 383–387): all owning ids pointing at any of the
given related ids, read from the join collection. -/
def owningIds (env : Env) (className key : String) (relIds : List JVal) :
    List JVal × List Event :=
  let table := joinTableName className key
  ((env.joinFind table (.obj [("relatedId", .obj [("$in", .arr relIds)])])).map
     (fun r => r.getD "owningId"),
   [.joinRead table])

end DBC

/-- `Object.assign(target, source)`: copies the source's own enumerable
properties onto the target in order.  A string source contributes its
index properties; `null`, `undefined` and other primitives contribute
nothing. -/
def assignFields (target : List (String × JVal)) : JVal → List (String × JVal)
  | .obj fs => fs.foldl (fun t kv => setF t kv.1 kv.2) target
  | .str s => (s.toList.enum).foldl
      (fun t ic => setF t (toString ic.1) (.str ic.2.toString)) target
  | _ => target

/-- Lines 421–422 of `reduceInRelation`:
`query.objectId = Object.assign({'$in': []}, query.objectId)` followed by
`query.objectId['$in'] = query.objectId['$in'].concat(ids)`.  (When the
assigned `$in` is a truthy non-array, the JS `.concat` would
string-coerce; theorems keep quantified inputs outside that case.) -/
def assignIn (objectId : JVal) (ids : List JVal) : JVal :=
  let assigned := assignFields [("$in", .arr [])] objectId
  let priorIn := match lookupF assigned "$in" with
    | some (.arr l) => l
    | _ => []
  .obj (setF assigned "$in" (.arr (priorIn ++ ids)))

namespace DBC

/-- The non-`$or` body of `reduceInRelation` (lines 405–431): for each
key of the original query whose value carries a truthy `$in` or is an
equal-to-pointer constraint, and whose declared schema type is a
relation type, read the owning ids from the join collection, delete the
key and merge the ids into the `objectId.$in` constraint.  The
membership tests and id extraction are synchronous reads of the original
query; the mutations accumulate on the evolving copy. -/
def reduceInRelationStep (env : Env) (className : String) (q : JVal) : JVal × List Event :=
  q.keys.foldl
    (fun (acc : JVal × List Event) key =>
      let v := q.getD key
      if v.truthy &&
          ((v.getD "$in").truthy ||
            (match v.get "__type" with | some (.str s) => s == "Pointer" | _ => false)) then
        match (env.getExpectedType className key).bind relationClassOf with
        | none => acc
        | some _ =>
          let relIds := if (v.getD "$in").truthy then
              (asArr (v.getD "$in")).map (fun r => r.getD "objectId")
            else
              [v.getD "objectId"]
          let (ids, evs2) := owningIds env className key relIds
          let cur1 := acc.1.del key
          (cur1.set "objectId" (assignIn (cur1.getD "objectId") ids), acc.2 ++ evs2)
      else acc)
    (q, [])

mutual

/-- `reduceInRelation` (lines 392–432).  Returns the pair (query object
after in-place mutation, value the returned promise resolves to) and the
join-collection reads issued.  In the `$or` case the source maps over
the branches and, as each recursive promise resolves, executes
`query['$or'][index] = aQuery`, writing the branch call's *resolved
value* — not the mutated branch object — back into the array, while the
call itself resolves to the `Promise.all` array of the inner `.then`
results, i.e. an array of `undefined`s.  In the non-`$or` case the call
resolves to the mutated query itself. -/
def reduceInRelation (env : Env) (className : String) (q : JVal) :
    JVal × JVal × List Event :=
  match h : q.get "$or" with
  | some (.arr ors) =>
    let results := reduceInRelationList env className ors
    (q.set "$or" (.arr (results.map (fun r => r.2.1))),
     .arr (results.map (fun _ => JVal.undef)),
     results.foldl (fun a r => a ++ r.2.2) [])
  | some v =>
    if v.truthy then (q, q, [])
    else
      let (m, evs) := reduceInRelationStep env className q
      (m, m, evs)
  | none =>
    let (m, evs) := reduceInRelationStep env className q
    (m, m, evs)
termination_by sizeOf q
decreasing_by
  have h2 : sizeOf (JVal.arr ors) < sizeOf q := sizeOf_get h
  simp only [JVal.arr.sizeOf_spec] at h2
  omega

/-- `ors.map((aQuery, index) => ...)` of `reduceInRelation`: the
recursive results for each `$or` branch, in order. -/
def reduceInRelationList (env : Env) (className : String) :
    List JVal → List (JVal × JVal × List Event)
  | [] => []
  | b :: bs =>
    reduceInRelation env className b :: reduceInRelationList env className bs
termination_by l => sizeOf l
decreasing_by
  · simp only [List.cons.sizeOf_spec]
    omega
  · simp only [List.cons.sizeOf_spec]
    omega

end

end DBC

mutual

/-- Executable structural size of a value, used as a recursion-depth
bound (fuel) for `reduceRelationKeys`. -/
def jsize : JVal → Nat
  | .arr xs => 1 + jsizeList xs
  | .obj fs => 1 + jsizeFields fs
  | _ => 1
termination_by v => sizeOf v
decreasing_by
  · simp only [JVal.arr.sizeOf_spec]; omega
  · simp only [JVal.obj.sizeOf_spec]; omega

/-- Size of an array's element list. -/
def jsizeList : List JVal → Nat
  | [] => 0
  | x :: xs => 1 + jsize x + jsizeList xs
termination_by l => sizeOf l
decreasing_by
  · simp only [List.cons.sizeOf_spec]; omega
  · simp only [List.cons.sizeOf_spec]; omega

/-- Size of an object's field list. -/
def jsizeFields : List (String × JVal) → Nat
  | [] => 0
  | (_, v) :: fs => 1 + jsize v + jsizeFields fs
termination_by l => sizeOf l
decreasing_by
  · simp only [List.cons.sizeOf_spec, Prod.mk.sizeOf_spec]
    omega
  · simp only [List.cons.sizeOf_spec]; omega

end

namespace DBC

/-- A truthy non-array `$or` makes the source throw (`ors.map` is not a
function); the second arm of `reduceInRelation` returns the query
unchanged instead and is kept out of every theorem's hypotheses. -/
def reduceRelationKeysAux (env : Env) (className : String) (fuel : Nat) (q : JVal) :
    JVal × List Event :=
  if fuel = 0 then (q, [])
  else if (q.getD "$or").truthy then
    let results := (asArr (q.getD "$or")).map (reduceRelationKeysAux env className (fuel - 1))
    (q.set "$or" (.arr (results.map Prod.fst)),
     results.foldl (fun a r => a ++ r.2) [])
  else
    let relatedTo := q.getD "$relatedTo"
    if relatedTo.truthy then
      let cn := asStr ((relatedTo.getD "object").getD "className")
      let k := asStr (relatedTo.getD "key")
      let (ids, evs) := relatedIds env cn k ((relatedTo.getD "object").getD "objectId")
      let q1 := q.del "$relatedTo"
      let oidVal := q1.getD "objectId"
      let inVal := (if oidVal.truthy then oidVal else JVal.obj []).getD "$in"
      let queryIn := if inVal.truthy then asArr inVal else []
      let q2 := q1.set "objectId" (.obj [("$in", .arr (queryIn ++ ids))])
      let (q3, evs2) := reduceRelationKeysAux env className (fuel - 1) q2
      (q3, evs ++ evs2)
    else (q, [])
termination_by fuel
decreasing_by
  · omega
  · omega

/-- `reduceRelationKeys` (lines 436–458): recursively rewrites `$or`
branches in place; a `$relatedTo` clause is replaced by an
`objectId $in` constraint merged with any existing `objectId.$in` list
(any other `objectId` shape is overwritten), after which the source
recurses on the same query once more.  The recursion is driven by a
fuel argument bounding the call depth; `jsize q + 1` suffices because
every `$or` descent moves to a structurally smaller branch and the
self-recursion after resolving `$relatedTo` terminates at the next
step (the clause has been deleted). -/
def reduceRelationKeys (env : Env) (className : String) (q : JVal) : JVal × List Event :=
  reduceRelationKeysAux env className (jsize q + 1) q

/-- `DatabaseController.untransformObject` (lines 113–128): project a
store document back to the public shape and, for `_User` records, strip
`authData` and `sessionToken` unless the caller is privileged or the
caller's group contains the record's own id. -/
def untransformObject (env : Env) (isMaster : Bool) (aclGroup : List String)
    (className : String) (mongoObject : JVal) : JVal :=
  let object := env.untransform className mongoObject
  if className != "_User" then object
  else if isMaster ||
      (match object.get "objectId" with
       | some (.str s) => aclGroup.contains s
       | _ => false) then object
  else (object.del "authData").del "sessionToken"

/-- The `$and` of the translated query with a permission `$or`
disjunction, as built at lines 164 and 295 and 524. -/
def andWithPerms (mongoWhere : JVal) (clauses : List JVal) : JVal :=
  .obj [("$and", .arr [mongoWhere, .obj [("$or", .arr clauses)]])]

/-- `DatabaseController.update` (lines 138–184): load schema, check the
`update` permission for a non-privileged caller, extract and schedule
relation mutations, translate query and update, conjoin the
write-permission disjunction when an acl is supplied, run the atomic
find-and-update, fail with `ObjectNotFound` when no document matched,
and otherwise answer with the post-update values of the `$inc` keys
taken from the post-mutation document. -/
def update (env : Env) (className : String) (query updateV : JVal) (opts : Options) :
    Except PErr JVal × List Event :=
  let isMaster := opts.acl.isNone
  let aclGroup := opts.acl.getD []
  if !isMaster && !(env.validatePermission className aclGroup "update") then
    (.error .permissionDenied, [.schemaLoad])
  else
    match handleRelationUpdates env className (query.getD "objectId") updateV with
    | (.error e, evs) => (.error e, .schemaLoad :: evs)
    | (.ok u2, evs) =>
      let mongoWhere :=
        match opts.acl with
        | some acl => andWithPerms (env.transformWhere className query) (writePermClauses acl)
        | none => env.transformWhere className query
      let mongoUpdate := transformUpdate u2
      match env.findOneAndUpdateRes className mongoWhere mongoUpdate with
      | none =>
        (.error .objectNotFound,
         .schemaLoad :: evs ++ [.storeFindOneAndUpdate className mongoWhere mongoUpdate])
      | some result =>
        let response :=
          match mongoUpdate.get "$inc" with
          | some (.obj incFs) => JVal.obj (incFs.map (fun kv => (kv.1, result.getD kv.1)))
          | _ => JVal.obj []
        (.ok response,
         .schemaLoad :: evs ++ [.storeFindOneAndUpdate className mongoWhere mongoUpdate])

/-- `DatabaseController.destroy` (lines 271–310): load schema, check the
`delete` permission for a non-privileged caller, translate the query,
conjoin the write-permission disjunction when an acl is supplied,
remove the matching documents, and fail with `ObjectNotFound` when zero
documents were removed — unless the class is `_Session`. -/
def destroy (env : Env) (className : String) (query : JVal) (opts : Options) :
    Except PErr Unit × List Event :=
  let isMaster := opts.acl.isNone
  let aclGroup := opts.acl.getD []
  if !isMaster && !(env.validatePermission className aclGroup "delete") then
    (.error .permissionDenied, [.schemaLoad])
  else if !(env.classNameIsValid className) then
    (.error .invalidClassName, [.schemaLoad])
  else
    let mongoWhere :=
      match opts.acl with
      | some acl => andWithPerms (env.transformWhere className query) (writePermClauses acl)
      | none => env.transformWhere className query
    let n := env.removeRes className mongoWhere
    if n == 0 && className != "_Session" then
      (.error .objectNotFound, [.schemaLoad, .storeRemove className mongoWhere])
    else
      (.ok (), [.schemaLoad, .storeRemove className mongoWhere])

/-- `DatabaseController.create` (lines 314–334): load schema, check the
`create` permission for a non-privileged caller, extract and schedule
relation mutations from the object payload, translate the remaining
fields and insert. -/
def create (env : Env) (className : String) (object : JVal) (opts : Options) :
    Except PErr Unit × List Event :=
  let isMaster := opts.acl.isNone
  let aclGroup := opts.acl.getD []
  if !isMaster && !(env.validatePermission className aclGroup "create") then
    (.error .permissionDenied, [.schemaLoad])
  else
    match handleRelationUpdates env className .null object with
    | (.error e, evs) => (.error e, .schemaLoad :: evs)
    | (.ok obj2, evs) =>
      if !(env.classNameIsValid className) then
        (.error .invalidClassName, .schemaLoad :: evs)
      else
        (.ok (),
         .schemaLoad :: evs ++ [.storeInsert className (env.transformCreate className obj2)])

/-- The action inferred for a find request (lines 500–504): `get` when
the query is a sole exact string match on `objectId`, else `find`. -/
def findAction (query : JVal) : String :=
  if query.keys.length == 1 &&
      (match query.get "objectId" with | some (.str _) => true | _ => false) then
    "get"
  else "find"

/-- `DatabaseController.find` (lines 474–538): load schema, translate
sort keys, check the inferred read permission for a non-privileged
caller, resolve `$relatedTo` then relation predicates, translate the
query, conjoin the read-permission disjunction for a non-privileged
caller, and run a count or a find whose results are projected by
`untransformObject`. -/
def find (env : Env) (className : String) (query : JVal) (opts : Options) :
    Except PErr JVal × List Event :=
  let mongoOptions : MongoOptions :=
    { skip := match opts.skip with
        | some n => if n != 0 then some n else none
        | none => none,
      limit := match opts.limit with
        | some n => if n != 0 then some n else none
        | none => none,
      sort := opts.sort.map (fun s => s.map (fun kv => (env.transformKey className kv.1, kv.2))) }
  let isMaster := opts.acl.isNone
  let aclGroup := opts.acl.getD []
  if !isMaster && !(env.validatePermission className aclGroup (findAction query)) then
    (.error .permissionDenied, [.schemaLoad])
  else
    let (q1, evs1) := reduceRelationKeys env className query
    let (q2, _, evs2) := reduceInRelation env className q1
    let mongoWhere :=
      if isMaster then env.transformWhere className q2
      else andWithPerms (env.transformWhere className q2) (readPermClauses aclGroup)
    if opts.count then
      (.ok (.num (env.countRes className mongoWhere mongoOptions)),
       .schemaLoad :: evs1 ++ evs2 ++ [.storeCount className mongoWhere])
    else
      (.ok (.arr ((env.findRes className mongoWhere mongoOptions).map
            (untransformObject env isMaster aclGroup className))),
       .schemaLoad :: evs1 ++ evs2 ++ [.storeFind className mongoWhere])

/-- The store-native filter a mutation runs against: the translated
query, conjoined with the write-permission disjunction when an acl was
supplied (the shared tail of `update` and `destroy`). -/
def mutationWhere (env : Env) (className : String) (query : JVal) (opts : Options) : JVal :=
  match opts.acl with
  | some acl => andWithPerms (env.transformWhere className query) (writePermClauses acl)
  | none => env.transformWhere className query

end DBC

/-! ## Claim-side predicates

Declarative predicates used to state the claims, independent of the
operational definitions above. -/

mutual

/-- A REST update operator value mentions a relation mutation: it is an
`AddRelation` or `RemoveRelation` operator, or a `Batch` operator one of
whose members does (recursively). -/
def hasRelOp (op : JVal) : Bool :=
  if !op.truthy then false
  else
    match op.get "__op" with
    | some (.str "AddRelation") => true
    | some (.str "RemoveRelation") => true
    | some (.str "Batch") =>
      match h : op.get "ops" with
      | some (.arr ops) => hasRelOpList ops
      | _ => false
    | _ => false
termination_by sizeOf op
decreasing_by
  have h2 : sizeOf (JVal.arr ops) < sizeOf op := sizeOf_get h
  simp only [JVal.arr.sizeOf_spec] at h2
  omega

/-- Some member of a `Batch` operator list mentions a relation mutation. -/
def hasRelOpList : List JVal → Bool
  | [] => false
  | x :: xs => hasRelOp x || hasRelOpList xs
termination_by l => sizeOf l
decreasing_by
  · simp only [List.cons.sizeOf_spec]; omega
  · simp only [List.cons.sizeOf_spec]; omega

end

mutual

/-- Some object anywhere inside the value binds the given key. -/
def hasKeyDeep (key : String) : JVal → Bool
  | .arr xs => hasKeyDeepList key xs
  | .obj fs => hasKeyDeepFields key fs
  | _ => false
termination_by v => sizeOf v
decreasing_by
  · simp only [JVal.arr.sizeOf_spec]; omega
  · simp only [JVal.obj.sizeOf_spec]; omega

/-- `hasKeyDeep` over an array's elements. -/
def hasKeyDeepList (key : String) : List JVal → Bool
  | [] => false
  | x :: xs => hasKeyDeep key x || hasKeyDeepList key xs
termination_by l => sizeOf l
decreasing_by
  · simp only [List.cons.sizeOf_spec]; omega
  · simp only [List.cons.sizeOf_spec]; omega

/-- `hasKeyDeep` over an object's fields. -/
def hasKeyDeepFields (key : String) : List (String × JVal) → Bool
  | [] => false
  | (k, v) :: fs => k == key || hasKeyDeep key v || hasKeyDeepFields key fs
termination_by l => sizeOf l
decreasing_by
  · simp only [List.cons.sizeOf_spec, Prod.mk.sizeOf_spec]; omega
  · simp only [List.cons.sizeOf_spec]; omega

end

/-- The `$in` list of an `objectId` constraint when it has one, `[]` for
any other shape (absent, string equality, malformed). -/
def priorInOf (objectId : JVal) : List JVal :=
  match objectId.get "$in" with
  | some (.arr l) => l
  | _ => []

/-- Whether an update operator value is an `Increment` operator. -/
def isIncrementOp (v : JVal) : Bool :=
  match v.get "__op" with
  | some (.str s) => s == "Increment"
  | _ => false

/-- Whether an update operator value is a `Delete` operator. -/
def isDeleteOp (v : JVal) : Bool :=
  match v.get "__op" with
  | some (.str s) => s == "Delete"
  | _ => false

/-- The top-level keys of an update payload bearing an `Increment`
operator. -/
def incrementKeys (u : JVal) : List String :=
  ((match u with | .obj fs => fs | _ => []).filter
      (fun (kv : String × JVal) => isIncrementOp kv.2)).map Prod.fst

/-! ## Concrete environments for witnesses and counterexamples -/

/-- An environment whose join store holds the `likes` relation edges
`(p1 → u1)` and `(p1 → u2)` of the spec's worked example; permissive
schema, identity translators, a store where mutations match nothing. -/
def likesEnv : Env where
  classNameIsValid := fun _ => true
  validatePermission := fun _ _ _ => true
  getExpectedType := fun _ _ => none
  hasKeys := fun _ _ => true
  joinFind := fun table q =>
    if table == "_Join:likes:Post" then
      match q.get "owningId" with
      | some (.str "p1") =>
        [.obj [("owningId", .str "p1"), ("relatedId", .str "u1")],
         .obj [("owningId", .str "p1"), ("relatedId", .str "u2")]]
      | _ => []
    else []
  transformKey := fun _ k => k
  transformWhere := fun _ q => q
  transformCreate := fun _ o => o
  untransform := fun _ o => o
  findOneAndUpdateRes := fun _ _ _ => none
  removeRes := fun _ _ => 0
  findRes := fun _ _ _ => []
  countRes := fun _ _ _ => 0

/-- `likesEnv` with every permission denied: the spy environment of the
permission-ordering claim. -/
def denyEnv : Env :=
  { likesEnv with validatePermission := fun _ _ _ => false }

/-- `likesEnv` with a store whose find-and-update matches the counter
document and answers with its post-increment state. -/
def counterEnv : Env :=
  { likesEnv with
    findOneAndUpdateRes := fun _ _ _ =>
      some (.obj [("objectId", .str "c1"), ("count", .num 42)]) }

/-- The `$relatedTo` clause of the spec's worked example. -/
def relatedToClause : JVal :=
  .obj [("object", .obj [("className", .str "Post"), ("objectId", .str "p1")]),
        ("key", .str "likes")]

/-- A query whose `$relatedTo` clause sits under two levels of `$or`. -/
def nestedOrQuery : JVal :=
  .obj [("$or", .arr [.obj [("$or", .arr [.obj [("$relatedTo", relatedToClause)]])]])]

/-! ## Claims -/

/-- **C1.** For every class, query, and non-privileged caller (the
options carry an acl list) whose group is denied the permission the
requested action requires, each of `find`, `create`, `update` and
`destroy` fails with `PermissionDenied` and its adapter trace is exactly
the schema load: no relation-table read or write and no store-native
find, insert, find-and-update or remove call is issued. -/
theorem permission_check_precedes_all_adapter_calls
    (env : Env) (cn : String) (q o u : JVal) (g : List String) (opts : Options)
    (hacl : opts.acl = some g)
    (hfind : env.validatePermission cn g (DBC.findAction q) = false)
    (hcreate : env.validatePermission cn g "create" = false)
    (hupdate : env.validatePermission cn g "update" = false)
    (hdelete : env.validatePermission cn g "delete" = false) :
    DBC.find env cn q opts = (.error .permissionDenied, [.schemaLoad]) ∧
    DBC.create env cn o opts = (.error .permissionDenied, [.schemaLoad]) ∧
    DBC.update env cn q u opts = (.error .permissionDenied, [.schemaLoad]) ∧
    DBC.destroy env cn q opts = (.error .permissionDenied, [.schemaLoad]) := by
  refine ⟨?_, ?_, ?_, ?_⟩ <;>
    simp [DBC.find, DBC.create, DBC.update, DBC.destroy, hacl, hfind, hcreate,
      hupdate, hdelete]

/-- **C1, witness.** A caller presenting group `["u1"]` against an
environment denying every permission: all four operations fail with
`PermissionDenied` after only the schema load. -/
theorem permission_check_precedes_all_adapter_calls_witness :
    DBC.find denyEnv "Post" (.obj [("title", .str "A")]) { acl := some ["u1"] }
      = (.error .permissionDenied, [.schemaLoad]) ∧
    DBC.create denyEnv "Post" (.obj [("title", .str "A")]) { acl := some ["u1"] }
      = (.error .permissionDenied, [.schemaLoad]) ∧
    DBC.update denyEnv "Post" (.obj [("title", .str "A")])
        (.obj [("title", .str "B")]) { acl := some ["u1"] }
      = (.error .permissionDenied, [.schemaLoad]) ∧
    DBC.destroy denyEnv "Post" (.obj [("title", .str "A")]) { acl := some ["u1"] }
      = (.error .permissionDenied, [.schemaLoad]) :=
  permission_check_precedes_all_adapter_calls denyEnv "Post"
    (.obj [("title", .str "A")]) (.obj [("title", .str "A")]) (.obj [("title", .str "B")])
    ["u1"] { acl := some ["u1"] } rfl rfl rfl rfl rfl

/-- **C2.** The claim fails on the code: resolving the spec's worked
`$relatedTo` example nested under two `$or` levels, `reduceRelationKeys`
first rewrites it correctly to an `objectId $in ["u1","u2"]` constraint
(first conjunct), but `reduceInRelation` then overwrites the inner
branch with its recursive call's resolved value — the `Promise.all`
array of `undefined`s — so the final query is `{$or: [[undefined]]}`
(second conjunct) and no `objectId` constraint survives anywhere in it
(third conjunct), contradicting "both are fully resolved into
`objectId $in [...]` constraints". -/
theorem nested_or_relation_resolution_clobbered :
    (DBC.reduceRelationKeys likesEnv "User" nestedOrQuery).1
      = .obj [("$or", .arr [.obj [("$or", .arr
          [.obj [("objectId", .obj [("$in", .arr [.str "u1", .str "u2"])])]])]])] ∧
    (DBC.reduceInRelation likesEnv "User"
        (DBC.reduceRelationKeys likesEnv "User" nestedOrQuery).1).1
      = .obj [("$or", .arr [.arr [.undef]])] ∧
    hasKeyDeep "objectId"
      (DBC.reduceInRelation likesEnv "User"
        (DBC.reduceRelationKeys likesEnv "User" nestedOrQuery).1).1 = false := by
  have h1 : (DBC.reduceRelationKeys likesEnv "User" nestedOrQuery).1
      = .obj [("$or", .arr [.obj [("$or", .arr
          [.obj [("objectId", .obj [("$in", .arr [.str "u1", .str "u2"])])]])]])] := by
    simp [DBC.reduceRelationKeys, DBC.reduceRelationKeysAux, DBC.relatedIds,
      likesEnv, nestedOrQuery, relatedToClause, JVal.get, JVal.getD, JVal.set, JVal.del,
      JVal.keys, JVal.truthy, lookupF, setF, asArr, asStr,
      joinTableName, jsize, jsizeList, jsizeFields]
  refine ⟨h1, ?_, ?_⟩ <;> rw [h1] <;>
    simp [DBC.reduceInRelation, DBC.reduceInRelationList, DBC.reduceInRelationStep,
      likesEnv, JVal.get, JVal.getD, JVal.set, JVal.del, JVal.keys, JVal.truthy,
      lookupF, setF, asArr, relationClassOf, hasKeyDeep, hasKeyDeepList, hasKeyDeepFields]

/-- **C3.** The claim fails on the code: in `schemaRaceTrace` every
`loadSchema` call is issued before any of them resolves, yet two
underlying schema-collection reads are performed, because the source
executes `delete this.schemaPromise` when the collection promise
resolves — before the read completes — so the second call finds no
stored promise and starts a fresh chain. -/
theorem loadSchema_race_two_reads :
    callsPrecedeResolutions schemaRaceTrace = true ∧
    (cacheRun initCache schemaRaceTrace).map CacheState.reads = some 2 := by
  decide

/-- A `loadSchema` call that finds a stored in-flight promise attaches
to it without changing the machine state, so any block of such calls is
a no-op of the run. -/
theorem cacheRun_calls_attach (m : Nat) (s : CacheState) (i : Nat)
    (h : s.schemaPromise = some i) (rest : List CEvent) :
    cacheRun s (List.replicate m .call ++ rest) = cacheRun s rest := by
  induction m with
  | zero => simp
  | succ k ih =>
    rw [List.replicate_succ, List.cons_append, cacheRun, cacheStep, h]
    exact ih

/-- **C3, amended.** Concurrent `loadSchema` calls all issued while the
in-flight promise is stored — that is, before the underlying
schema-collection *handle* resolves, not merely before the load
resolves — share a single chain: however many such calls are made,
exactly one underlying read is performed. -/
theorem loadSchema_single_flight_while_promise_stored (n : Nat) (h : 1 ≤ n) :
    cacheRun initCache
        (List.replicate n CEvent.call ++ [.collResolve 0, .loadResolve 0])
      = some { schemaPromise := none, nextId := 1, pendingColl := [],
               pendingLoad := [], resolvedChains := [0], reads := 1 } := by
  obtain ⟨m, rfl⟩ : ∃ m, n = m + 1 := ⟨n - 1, by omega⟩
  rw [List.replicate_succ, List.cons_append]
  rw [show cacheRun initCache
        (CEvent.call :: (List.replicate m CEvent.call ++ [.collResolve 0, .loadResolve 0]))
      = cacheRun { schemaPromise := some 0, nextId := 1, pendingColl := [0],
                   pendingLoad := [], resolvedChains := [], reads := 0 }
          (List.replicate m CEvent.call ++ [.collResolve 0, .loadResolve 0]) from rfl]
  rw [cacheRun_calls_attach m _ 0 rfl]
  decide

/-- **C3, amended, witness.** Three calls issued while the promise is
stored still yield a single read. -/
theorem loadSchema_single_flight_while_promise_stored_witness :
    cacheRun initCache
        (List.replicate 3 CEvent.call ++ [.collResolve 0, .loadResolve 0])
      = some { schemaPromise := none, nextId := 1, pendingColl := [],
               pendingLoad := [], resolvedChains := [0], reads := 1 } :=
  loadSchema_single_flight_while_promise_stored 3 (by decide)

/-- **C4.** The claim fails on the code: after a schema load has fully
resolved (one read performed, chain 0 resolved), a subsequent
`loadSchema` call with the default acceptor performs a fresh read of the
schema collection — two reads in total — because `schemaPromise` was
deleted when chain 0's collection promise resolved, so nothing is
cached. -/
theorem loadSchema_no_caching_after_resolution :
    (cacheRun initCache [.call, .collResolve 0, .loadResolve 0]).map CacheState.reads
      = some 1 ∧
    (cacheRun initCache
        ([.call, .collResolve 0, .loadResolve 0] ++ [.call, .collResolve 1, .loadResolve 1])).map
        CacheState.reads
      = some 2 := by
  decide

/-- **C4, amended.** From any machine state in which no promise is
stored — in particular any state reached after a previous load has
resolved — a further `loadSchema` call starts a new chain whose
completion performs exactly one additional underlying read: the
resolved schema is never served from a cache. -/
theorem loadSchema_fresh_read_when_no_promise_stored (s : CacheState)
    (h : s.schemaPromise = none) :
    ∃ s', cacheRun s [.call, .collResolve s.nextId, .loadResolve s.nextId] = some s' ∧
      s'.reads = s.reads + 1 := by
  exact ⟨{ schemaPromise := none, nextId := s.nextId + 1,
           pendingColl := (s.pendingColl ++ [s.nextId]).erase s.nextId,
           pendingLoad := (s.pendingLoad ++ [s.nextId]).erase s.nextId,
           resolvedChains := s.resolvedChains ++ [s.nextId], reads := s.reads + 1 },
         by simp [cacheRun, cacheStep, h, List.mem_append, List.mem_singleton],
         rfl⟩

/-- **C4, amended, witness.** From the state reached after one complete
load (one read, chain 0 resolved, no promise stored), a further call's
chain performs a second read. -/
theorem loadSchema_fresh_read_when_no_promise_stored_witness :
    ∃ s', cacheRun { schemaPromise := none, nextId := 1, pendingColl := [],
                     pendingLoad := [], resolvedChains := [0], reads := 1 }
        [.call, .collResolve 1, .loadResolve 1] = some s' ∧
      s'.reads = 2 :=
  loadSchema_fresh_read_when_no_promise_stored
    { schemaPromise := none, nextId := 1, pendingColl := [],
      pendingLoad := [], resolvedChains := [0], reads := 1 } rfl

/-- **C5.** The claim fails on the code: an `update` on the session
class whose query matches zero documents does *not* succeed silently —
lines 169–173 reject with `ObjectNotFound` without any class check (the
session-class exemption exists only in `destroy`). -/
theorem update_session_zero_match_not_silent :
    (DBC.update likesEnv "_Session" (.obj [("objectId", .str "s1")])
        (.obj [("foo", .str "b")]) {}).1
      = .error .objectNotFound := by
  simp [DBC.update, DBC.handleRelationUpdates, DBC.processOp, likesEnv,
    transformUpdate, JVal.get, JVal.getD, JVal.truthy, JVal.del, lookupF]

/-- **C5, amended.** An `update` whose (permission-passing) query
matches zero documents fails with `ObjectNotFound` for *every* class,
the session class included; the session-class exemption applies only to
`destroy`. -/
theorem update_zero_match_objectNotFound (env : Env) (cn : String) (q u u2 : JVal)
    (evs : List Event) (opts : Options)
    (hperm : opts.acl = none ∨ env.validatePermission cn (opts.acl.getD []) "update" = true)
    (hrel : DBC.handleRelationUpdates env cn (q.getD "objectId") u = (.ok u2, evs))
    (hzero : env.findOneAndUpdateRes cn (DBC.mutationWhere env cn q opts)
        (transformUpdate u2) = none) :
    (DBC.update env cn q u opts).1 = .error .objectNotFound := by
  cases hacl : opts.acl with
  | none =>
    simp only [DBC.mutationWhere, hacl] at hzero
    simp [DBC.update, hacl, hrel, hzero]
  | some g =>
    have hv : env.validatePermission cn g "update" = true := by
      rcases hperm with h1 | h2
      · rw [hacl] at h1; cases h1
      · rwa [hacl] at h2
    simp only [DBC.mutationWhere, hacl] at hzero
    simp [DBC.update, hacl, hv, hrel, hzero]

/-- **C5, amended, witness.** The empty update on the session class with
a zero-match store fails with `ObjectNotFound`. -/
theorem update_zero_match_objectNotFound_witness :
    (DBC.update likesEnv "_Session" (.obj [("objectId", .str "s2")]) (.obj []) {}).1
      = .error .objectNotFound :=
  update_zero_match_objectNotFound likesEnv "_Session" (.obj [("objectId", .str "s2")])
    (.obj []) (.obj []) [] {} (Or.inl rfl) rfl rfl

/-- **C6.** `destroy` fails with `ObjectNotFound` exactly when zero
documents were removed and the class is not `_Session`: zero-removal
succeeds on the session class, and any positive removal count succeeds
for every class. -/
theorem destroy_zero_removed_policy (env : Env) (cn : String) (q : JVal) (opts : Options)
    (hperm : opts.acl = none ∨ env.validatePermission cn (opts.acl.getD []) "delete" = true)
    (hvalid : env.classNameIsValid cn = true) :
    (DBC.destroy env cn q opts).1
      = (if env.removeRes cn (DBC.mutationWhere env cn q opts) = 0 ∧ cn ≠ "_Session"
         then .error .objectNotFound else .ok ()) := by
  cases hacl : opts.acl with
  | none =>
    simp [DBC.destroy, DBC.mutationWhere, hacl, hvalid, Bool.and_eq_true,
      beq_iff_eq, bne_iff_ne]
    split <;> rfl
  | some g =>
    have hv : env.validatePermission cn g "delete" = true := by
      rcases hperm with h1 | h2
      · rw [hacl] at h1; cases h1
      · rwa [hacl] at h2
    simp [DBC.destroy, DBC.mutationWhere, hacl, hvalid, hv, Bool.and_eq_true,
      beq_iff_eq, bne_iff_ne]
    split <;> rfl

/-- **C6, witness.** Against a store removing zero documents, `destroy`
succeeds on `_Session` and fails with `ObjectNotFound` on `Widget`. -/
theorem destroy_zero_removed_policy_witness :
    (DBC.destroy likesEnv "_Session" (.obj []) {}).1 = .ok () ∧
    (DBC.destroy likesEnv "Widget" (.obj []) {}).1 = .error .objectNotFound := by
  constructor
  · exact (destroy_zero_removed_policy likesEnv "_Session" (.obj []) {}
      (Or.inl rfl) rfl).trans (by simp)
  · exact (destroy_zero_removed_policy likesEnv "Widget" (.obj []) {}
      (Or.inl rfl) rfl).trans (by simp [likesEnv])

/-- Filtering out one key leaves lookups of other keys unchanged. -/
theorem lookupF_filter_ne {fs : List (String × JVal)} {k k' : String} (h : k ≠ k') :
    lookupF (fs.filter (fun kv => kv.1 != k')) k = lookupF fs k := by
  have hc : (k' == k) = false := by
    simp
    exact Ne.symm h
  induction fs with
  | nil => rfl
  | cons kv rest ih =>
    by_cases h1 : kv.1 = k'
    · simp [List.filter_cons, h1, lookupF, hc, ih]
    · by_cases h2 : kv.1 = k <;> simp [List.filter_cons, h1, lookupF, h2, h, ih]

/-- Setting one key leaves lookups of other keys unchanged. -/
theorem lookupF_setF_ne {fs : List (String × JVal)} {k k' : String} {v : JVal} (h : k ≠ k') :
    lookupF (setF fs k' v) k = lookupF fs k := by
  have hc : (k' == k) = false := by
    simp
    exact Ne.symm h
  induction fs with
  | nil => simp [setF, lookupF, hc]
  | cons kv rest ih =>
    by_cases h1 : kv.1 = k'
    · simp [setF, h1, lookupF, hc]
    · by_cases h2 : kv.1 = k <;> simp [setF, h1, lookupF, h2, h, ih]

/-- Looking up the key just set yields the new value. -/
theorem lookupF_setF_self (fs : List (String × JVal)) (k : String) (v : JVal) :
    lookupF (setF fs k v) k = some v := by
  induction fs with
  | nil => simp [setF, lookupF]
  | cons kv rest ih =>
    by_cases h1 : kv.1 = k
    · simp [setF, h1, lookupF]
    · simp [setF, h1, lookupF, ih]

/-- Deleting one key leaves reads of other keys unchanged. -/
theorem getD_del_ne (q : JVal) {k k' : String} (h : k ≠ k') :
    (q.del k').getD k = q.getD k := by
  cases q <;> simp [JVal.del, JVal.getD, JVal.get]
  rw [lookupF_filter_ne h]

/-- Setting one key leaves reads of other keys unchanged. -/
theorem getD_set_ne (q : JVal) {k k' : String} {v : JVal} (h : k ≠ k') :
    (q.set k' v).getD k = q.getD k := by
  cases q <;> simp [JVal.set, JVal.getD, JVal.get]
  rw [lookupF_setF_ne h]

/-- Lookup after filtering out exactly that key fails. -/
theorem lookupF_filter_self (fs : List (String × JVal)) (k : String) :
    lookupF (fs.filter (fun kv => kv.1 != k)) k = none := by
  induction fs with
  | nil => rfl
  | cons kv rest ih =>
    by_cases h1 : kv.1 = k
    · simp [List.filter_cons, h1, ih]
    · simp [List.filter_cons, h1, lookupF, ih]

/-- Reading the key just deleted yields `undefined`. -/
theorem getD_del_self (q : JVal) (k : String) : (q.del k).getD k = .undef := by
  cases q <;> simp [JVal.del, JVal.getD, JVal.get, lookupF_filter_self]

/-- A query with neither a truthy `$or` nor a truthy `$relatedTo` is
left unchanged by `reduceRelationKeysAux`, whatever the fuel. -/
theorem reduceRelationKeysAux_inert (env : Env) (cn : String) (fuel : Nat) (q : JVal)
    (hor : (q.getD "$or").truthy = false)
    (hrt : (q.getD "$relatedTo").truthy = false) :
    DBC.reduceRelationKeysAux env cn fuel q = (q, []) := by
  rw [DBC.reduceRelationKeysAux]
  by_cases hf : fuel = 0
  · simp [hf]
  · simp [hf, hor, hrt]

/-- The `queryIn` computation of `reduceRelationKeys`
(`(query.objectId || {})['$in'] || []`) picks exactly the prior
`objectId.$in` list and `[]` for every other `objectId` shape. -/
theorem priorIn_normalize (w : JVal) :
    (if ((if w.truthy then w else JVal.obj []).getD "$in").truthy
     then asArr ((if w.truthy then w else JVal.obj []).getD "$in")
     else []) = priorInOf w := by
  cases w with
  | null => simp [JVal.truthy, priorInOf, JVal.getD, JVal.get, lookupF, asArr]
  | undef => simp [JVal.truthy, priorInOf, JVal.getD, JVal.get, lookupF, asArr]
  | bool b => cases b <;> simp [JVal.truthy, priorInOf, JVal.getD, JVal.get, lookupF, asArr]
  | num n =>
    by_cases hn : n = 0 <;>
      simp [JVal.truthy, priorInOf, JVal.getD, JVal.get, lookupF, asArr, hn]
  | str s =>
    by_cases hs : s = "" <;>
      simp [JVal.truthy, priorInOf, JVal.getD, JVal.get, lookupF, asArr, hs]
  | arr xs => simp [JVal.truthy, priorInOf, JVal.getD, JVal.get, lookupF, asArr]
  | obj fs =>
    cases hl : lookupF fs "$in" with
    | none => simp [JVal.truthy, priorInOf, JVal.getD, JVal.get, hl, asArr]
    | some v =>
      cases v with
      | null => simp [JVal.truthy, priorInOf, JVal.getD, JVal.get, hl, asArr]
      | undef => simp [JVal.truthy, priorInOf, JVal.getD, JVal.get, hl, asArr]
      | bool b =>
        cases b <;> simp [JVal.truthy, priorInOf, JVal.getD, JVal.get, hl, asArr]
      | num n =>
        by_cases hn : n = 0 <;>
          simp [JVal.truthy, priorInOf, JVal.getD, JVal.get, hl, asArr, hn]
      | str s =>
        by_cases hs : s = "" <;>
          simp [JVal.truthy, priorInOf, JVal.getD, JVal.get, hl, asArr, hs]
      | arr xs => simp [JVal.truthy, priorInOf, JVal.getD, JVal.get, hl, asArr]
      | obj fs2 => simp [JVal.truthy, priorInOf, JVal.getD, JVal.get, hl, asArr]

/-- One `reduceRelationKeysAux` step on a `$relatedTo` query, for any
non-zero fuel: the clause is deleted, `objectId` is overwritten with
the merged `$in` constraint, and the self-recursion then finds nothing
left to do. -/
theorem reduceRelationKeysAux_relatedTo (env : Env) (className : String) (fuel : Nat)
    (q rt : JVal) (cls k : String)
    (hfuel : ¬fuel = 0)
    (hor : (q.getD "$or").truthy = false)
    (hrt : q.getD "$relatedTo" = rt)
    (hrtt : rt.truthy = true)
    (hcls : (rt.getD "object").getD "className" = .str cls)
    (hkey : rt.getD "key" = .str k) :
    DBC.reduceRelationKeysAux env className fuel q
      = ((q.del "$relatedTo").set "objectId"
           (.obj [("$in", .arr (priorInOf (q.getD "objectId")
              ++ (DBC.relatedIds env cls k ((rt.getD "object").getD "objectId")).1))]),
         [.joinRead (joinTableName cls k)]) := by
  rw [DBC.reduceRelationKeysAux]
  simp only [if_neg hfuel, hrt, hor, Bool.false_eq_true, if_false, hrtt, if_true,
    hcls, hkey, asStr]
  rw [reduceRelationKeysAux_inert]
  · rw [getD_del_ne q (by decide : "objectId" ≠ "$relatedTo"), priorIn_normalize]
    simp [DBC.relatedIds]
  · rw [getD_set_ne _ (by decide : "$or" ≠ "objectId"),
      getD_del_ne q (by decide : "$or" ≠ "$relatedTo")]
    exact hor
  · rw [getD_set_ne _ (by decide : "$relatedTo" ≠ "objectId"), getD_del_self]
    rfl

/-- A fold of edge-scheduling calls that individually succeed keeps the
accumulator's error component `none`. -/
theorem relFold_none (g : JVal → Option PErr × List Event) (hg : ∀ x, (g x).1 = none) :
    ∀ (l : List JVal) (acc : Option PErr × List Event), acc.1 = none →
    (l.foldl (fun (acc : Option PErr × List Event) object =>
      match acc with
      | (some e, evs) => (some e, evs)
      | (none, evs) =>
        let (oe, evs2) := g object
        (oe, evs ++ evs2)) acc).1 = none := by
  intro l
  induction l with
  | nil =>
    intro acc h
    simpa using h
  | cons x xs ih =>
    intro acc hacc
    obtain ⟨oe, evs⟩ := acc
    have : oe = none := by simpa using hacc
    subst this
    rw [List.foldl_cons]
    apply ih
    simpa using hg x

/-- Specification of the `process` closure when every join-collection
name is accepted: processing never errors, every `deleteMe` entry it
records is the processed top-level key, and it records at least one
entry exactly when the operator mentions a relation mutation. -/
theorem processOp_spec (env : Env) (cn : String) (oid : JVal) (key : String)
    (hval : ∀ s, env.classNameIsValid s = true) :
    ∀ op, (DBC.processOp env cn oid key op).1 = none ∧
      (∀ x ∈ (DBC.processOp env cn oid key op).2.2, x = key) ∧
      ((DBC.processOp env cn oid key op).2.2 = [] ↔ hasRelOp op = false) := by
  refine DBC.processOp.induct env cn oid key
    (fun op => (DBC.processOp env cn oid key op).1 = none ∧
      (∀ x ∈ (DBC.processOp env cn oid key op).2.2, x = key) ∧
      ((DBC.processOp env cn oid key op).2.2 = [] ↔ hasRelOp op = false))
    (fun l => (DBC.processOps env cn oid key l).1 = none ∧
      (∀ x ∈ (DBC.processOps env cn oid key l).2.2, x = key) ∧
      ((DBC.processOps env cn oid key l).2.2 = [] ↔ hasRelOpList l = false))
    ?_ ?_ ?_ ?_ ?_ ?_ ?_ ?_ ?_
  · intro op h
    simp [DBC.processOp, hasRelOp, h]
  · intro op h1 h2
    constructor
    · simp only [DBC.processOp, h2, if_neg h1]
      exact relFold_none
        (fun object => DBC.addRelation env key cn oid (object.getD "objectId"))
        (fun x => by simp [DBC.addRelation, hval]) _ _ rfl
    · simp [DBC.processOp, hasRelOp, h1, h2]
  · intro op h1 h2
    constructor
    · simp only [DBC.processOp, h2, if_neg h1]
      exact relFold_none
        (fun object => DBC.removeRelation env key cn oid (object.getD "objectId"))
        (fun x => by simp [DBC.removeRelation, hval]) _ _ rfl
    · simp [DBC.processOp, hasRelOp, h1, h2]
  · intro op h1 h2 ops hops ih
    obtain ⟨ih1, ih2, ih3⟩ := ih
    have hp : DBC.processOp env cn oid key op = DBC.processOps env cn oid key ops := by
      simp only [DBC.processOp, h2, if_neg h1]
      split
      · next ops' heq =>
        rw [hops] at heq
        simp at heq
        rw [heq]
      · next hne => exact (hne ops hops).elim
    have hq : hasRelOp op = hasRelOpList ops := by
      simp only [hasRelOp, h2, if_neg h1]
      split
      · next ops' heq =>
        rw [hops] at heq
        simp at heq
        rw [heq]
      · next hne => exact (hne ops hops).elim
    rw [hp, hq]
    exact ⟨ih1, ih2, ih3⟩
  · intro op h1 h2 hno
    have hred : DBC.processOp env cn oid key op = (none, [], []) := by
      simp only [DBC.processOp, h2, if_neg h1]
    have hrel : hasRelOp op = false := by
      simp only [hasRelOp, h2, if_neg h1]
    simp [hred, hrel]
  · intro op h1 h2 h3 h4
    have hred : DBC.processOp env cn oid key op = (none, [], []) := by
      rw [DBC.processOp.eq_def, if_neg h1]
      split
      · next heq => exact (h2 heq).elim
      · next heq => exact (h3 heq).elim
      · next heq => exact (h4 heq).elim
      · rfl
    have hrel : hasRelOp op = false := by
      rw [hasRelOp.eq_def, if_neg h1]
      split
      · next heq => exact (h2 heq).elim
      · next heq => exact (h3 heq).elim
      · next heq => exact (h4 heq).elim
      · rfl
    simp [hred, hrel]
  · simp [DBC.processOps, hasRelOpList]
  · intro x xs e evs dm hx ih
    obtain ⟨ih1, _, _⟩ := ih
    rw [hx] at ih1
    simp at ih1
  · intro x xs evs dm hx oe evs2 dm2 hxs ih1 ih2
    obtain ⟨ihx1, ihx2, ihx3⟩ := ih1
    obtain ⟨ihs1, ihs2, ihs3⟩ := ih2
    rw [hx] at ihx2 ihx3
    rw [hxs] at ihs1 ihs2 ihs3
    simp only at ihx2 ihx3 ihs1 ihs2 ihs3
    refine ⟨?_, ?_, ?_⟩ <;>
      simp only [DBC.processOps, hx, hxs]
    · exact ihs1
    · intro y hy
      rcases List.mem_append.mp hy with hmem | hmem
      · exact ihx2 y hmem
      · exact ihs2 y hmem
    · simp only [hasRelOpList, List.append_eq_nil, Bool.or_eq_false_iff]
      constructor
      · rintro ⟨ha, hb⟩
        exact ⟨ihx3.mp ha, ihs3.mp hb⟩
      · rintro ⟨ha, hb⟩
        exact ⟨ihx3.mpr ha, ihs3.mpr hb⟩

/-- A nonempty list all of whose members equal `k` contains `k`. -/
theorem mem_of_all_eq {dm : List String} {k : String}
    (hall : ∀ x ∈ dm, x = k) (hne : dm ≠ []) : k ∈ dm := by
  cases dm with
  | nil => exact (hne rfl).elim
  | cons x t =>
    have := hall x (by simp)
    rw [← this]
    simp

/-- With pairwise-distinct keys, a key determines its value. -/
theorem nodup_key_unique {fs : List (String × JVal)} (h : (fs.map Prod.fst).Nodup)
    {k : String} {v1 v2 : JVal} (h1 : (k, v1) ∈ fs) (h2 : (k, v2) ∈ fs) : v1 = v2 := by
  induction fs with
  | nil => cases h1
  | cons kv rest ih =>
    simp only [List.map_cons, List.nodup_cons] at h
    rcases List.mem_cons.mp h1 with e1 | m1 <;> rcases List.mem_cons.mp h2 with e2 | m2
    · rw [← e1] at e2
      injection e2 with _ hv
      exact hv.symm
    · exfalso
      apply h.1
      rw [← e1]
      exact List.mem_map.mpr ⟨(k, v2), m2, rfl⟩
    · exfalso
      apply h.1
      rw [← e2]
      exact List.mem_map.mpr ⟨(k, v1), m1, rfl⟩
    · exact ih h.2 m1 m2

/-- The key-processing fold of `handleRelationUpdates`: it never errors
when every join-collection name is accepted, and a key belongs to the
accumulated `deleteMe` list exactly when it was already accumulated or
some processed field with that key mentions a relation mutation. -/
theorem handleRel_fold_spec (env : Env) (cn : String) (oid : JVal)
    (hval : ∀ s, env.classNameIsValid s = true) :
    ∀ (fs : List (String × JVal)) (evs0 : List Event) (dm0 : List String),
    ((fs.foldl (fun (acc : Option PErr × List Event × List String) (kv : String × JVal) =>
        match acc with
        | (some e, evs, dm) => (some e, evs, dm)
        | (none, evs, dm) =>
          let (oe, evs2, dm2) := DBC.processOp env cn oid kv.1 kv.2
          (oe, evs ++ evs2, dm ++ dm2)) (none, evs0, dm0)).1 = none)
      ∧ (∀ k',
          (k' ∈ (fs.foldl (fun (acc : Option PErr × List Event × List String)
              (kv : String × JVal) =>
            match acc with
            | (some e, evs, dm) => (some e, evs, dm)
            | (none, evs, dm) =>
              let (oe, evs2, dm2) := DBC.processOp env cn oid kv.1 kv.2
              (oe, evs ++ evs2, dm ++ dm2)) (none, evs0, dm0)).2.2
            ↔ (k' ∈ dm0 ∨ ∃ v, (k', v) ∈ fs ∧ hasRelOp v = true))) := by
  intro fs
  induction fs with
  | nil =>
    intro evs0 dm0
    simp
  | cons kv rest ih =>
    intro evs0 dm0
    obtain ⟨p1, p2, p3⟩ := processOp_spec env cn oid kv.1 hval kv.2
    rcases hpr : DBC.processOp env cn oid kv.1 kv.2 with ⟨oe, evs2, dm2⟩
    rw [hpr] at p1 p2 p3
    simp only at p1 p2 p3
    subst p1
    rw [List.foldl_cons]
    simp only [hpr]
    obtain ⟨iha, ihb⟩ := ih (evs0 ++ evs2) (dm0 ++ dm2)
    refine ⟨iha, fun k' => (ihb k').trans ?_⟩
    have hdm2 : k' ∈ dm2 ↔ (k' = kv.1 ∧ hasRelOp kv.2 = true) := by
      constructor
      · intro hm
        refine ⟨p2 k' hm, ?_⟩
        rcases hh : hasRelOp kv.2 with _ | _
        · exact absurd (p3.mpr hh) (by rintro rfl; cases hm)
        · rfl
      · rintro ⟨rfl, hh⟩
        apply mem_of_all_eq p2
        intro hemp
        rw [p3.mp hemp] at hh
        cases hh
    constructor
    · rintro (hm | ⟨v, hv, hrel⟩)
      · rcases List.mem_append.mp hm with hm0 | hm2
        · exact Or.inl hm0
        · obtain ⟨rfl, hh⟩ := hdm2.mp hm2
          exact Or.inr ⟨kv.2, by simp, hh⟩
      · exact Or.inr ⟨v, by simp [hv], hrel⟩
    · rintro (hm0 | ⟨v, hv, hrel⟩)
      · exact Or.inl (List.mem_append.mpr (Or.inl hm0))
      · rcases List.mem_cons.mp hv with e1 | m1
        · obtain ⟨a, b⟩ := kv
          injection e1 with hk hv2
          subst hk
          subst hv2
          exact Or.inl (List.mem_append.mpr (Or.inr (hdm2.mpr ⟨rfl, hrel⟩)))
        · exact Or.inr ⟨v, m1, hrel⟩

/-- Folding `delete update[key]` over a key list removes exactly the
bindings whose key occurs in the list. -/
theorem foldl_del_obj : ∀ (dm : List String) (fs : List (String × JVal)),
    dm.foldl (fun (q : JVal) k => q.del k) (.obj fs)
      = .obj (fs.filter (fun kv => !dm.contains kv.1)) := by
  intro dm
  induction dm with
  | nil =>
    intro fs
    simp
  | cons k rest ih =>
    intro fs
    have key : ∀ (l : List String) (a : String), (!l.contains a) = decide (¬a ∈ l) := by
      intro l a
      rcases hm : l.contains a with _ | _
      · have : ¬a ∈ l := fun h => by
          rw [show l.contains a = l.elem a from rfl, List.elem_eq_true_of_mem h] at hm
          cases hm
        simp [this]
      · have : a ∈ l := List.mem_of_elem_eq_true hm
        simp [this]
    rw [List.foldl_cons]
    rw [show (JVal.obj fs).del k = .obj (fs.filter (fun kv => kv.1 != k)) from rfl]
    rw [ih]
    congr 1
    rw [List.filter_filter]
    refine List.filter_congr ?_
    intro kv _
    rw [key rest kv.1, key (k :: rest) kv.1]
    by_cases h1 : kv.1 = k <;> by_cases h2 : kv.1 ∈ rest <;>
      simp [h1, h2, List.mem_cons, bne_iff_ne]

/-- The key-processing fold of `handleRelationUpdates`, packaged: it
yields no error and a `deleteMe` list containing exactly the keys of
relation-mentioning fields. -/
theorem handleRel_fold_ex (env : Env) (cn : String) (oid : JVal)
    (hval : ∀ s, env.classNameIsValid s = true) (fs : List (String × JVal)) :
    ∃ evs dm,
      (fs.foldl (fun (acc : Option PErr × List Event × List String) (kv : String × JVal) =>
          match acc with
          | (some e, evs, dm) => (some e, evs, dm)
          | (none, evs, dm) =>
            let (oe, evs2, dm2) := DBC.processOp env cn oid kv.1 kv.2
            (oe, evs ++ evs2, dm ++ dm2)) (none, [], []))
        = (none, evs, dm)
      ∧ (∀ k', k' ∈ dm ↔ ∃ v, (k', v) ∈ fs ∧ hasRelOp v = true) := by
  obtain ⟨h1, h2⟩ := handleRel_fold_spec env cn oid hval fs [] []
  rcases hF : (fs.foldl (fun (acc : Option PErr × List Event × List String)
      (kv : String × JVal) =>
      match acc with
      | (some e, evs, dm) => (some e, evs, dm)
      | (none, evs, dm) =>
        let (oe, evs2, dm2) := DBC.processOp env cn oid kv.1 kv.2
        (oe, evs ++ evs2, dm ++ dm2)) (none, [], [])) with ⟨oe, evs, dm⟩
  rw [hF] at h1 h2
  simp only at h1 h2
  subst h1
  exact ⟨evs, dm, rfl, fun k' => by simpa using h2 k'⟩

/-- **C10.** `handleRelationUpdates` deletes from the update payload
exactly the top-level keys whose value mentions a relation mutation —
an `AddRelation` op, a `RemoveRelation` op, or a `Batch` op containing
one (recursively) — and keeps every other binding: in the `Batch` case
the whole key is dropped, so non-relation operators nested in that
`Batch` never reach the store-native update. -/
theorem handleRelationUpdates_deletes_exactly_relation_keys (env : Env) (cn : String)
    (oid : JVal) (fs : List (String × JVal))
    (hval : ∀ s, env.classNameIsValid s = true)
    (hnodup : (fs.map Prod.fst).Nodup) :
    (DBC.handleRelationUpdates env cn oid (.obj fs)).1
      = .ok (.obj (fs.filter (fun kv => !hasRelOp kv.2))) := by
  obtain ⟨evs, dm, hF, hmem⟩ := handleRel_fold_ex env cn
    (if ((JVal.obj fs).getD "objectId").truthy then (JVal.obj fs).getD "objectId" else oid)
    hval fs
  simp only [DBC.handleRelationUpdates]
  rw [hF]
  simp only
  rw [foldl_del_obj]
  congr 2
  refine List.filter_congr ?_
  intro kv hkv
  congr 1
  rcases hrel : hasRelOp kv.2 with _ | _
  · rcases hcon : dm.contains kv.1 with _ | _
    · rfl
    · exfalso
      have hin : kv.1 ∈ dm := List.mem_of_elem_eq_true hcon
      obtain ⟨v, hvin, hvrel⟩ := (hmem kv.1).mp hin
      rw [nodup_key_unique hnodup hvin hkv] at hvrel
      rw [hrel] at hvrel
      cases hvrel
  · have hin : kv.1 ∈ dm := (hmem kv.1).mpr ⟨kv.2, hkv, hrel⟩
    exact List.elem_eq_true_of_mem hin

/-- **C10, witness.** An update payload with an `AddRelation` key, a
`Batch` mixing an `Increment` with a `RemoveRelation`, and a plain
field: both relation-mentioning keys are deleted whole — the nested
`Increment` with them — and only the plain field survives. -/
theorem handleRelationUpdates_deletes_exactly_relation_keys_witness :
    (DBC.handleRelationUpdates likesEnv "Post" (.str "o1") (.obj [
        ("a", .obj [("__op", .str "AddRelation"),
                    ("objects", .arr [.obj [("objectId", .str "x1")]])]),
        ("b", .obj [("__op", .str "Batch"), ("ops", .arr [
            .obj [("__op", .str "Increment"), ("amount", .num 1)],
            .obj [("__op", .str "RemoveRelation"),
                  ("objects", .arr [.obj [("objectId", .str "x2")]])]])]),
        ("c", .num 5)])).1
      = .ok (.obj [("c", .num 5)]) := by
  refine (handleRelationUpdates_deletes_exactly_relation_keys likesEnv "Post" (.str "o1") _
    (fun s => rfl) (by simp)).trans ?_
  simp [hasRelOp, hasRelOpList, JVal.get, JVal.truthy, lookupF]

/-- An operator mentioning no relation mutation is a no-op for the
`process` closure: no events, no error, no `deleteMe` entries. -/
theorem processOp_norel (env : Env) (cn : String) (oid : JVal) (key : String) :
    ∀ op, hasRelOp op = false → DBC.processOp env cn oid key op = (none, [], []) := by
  refine DBC.processOp.induct env cn oid key
    (fun op => hasRelOp op = false → DBC.processOp env cn oid key op = (none, [], []))
    (fun l => hasRelOpList l = false → DBC.processOps env cn oid key l = (none, [], []))
    ?_ ?_ ?_ ?_ ?_ ?_ ?_ ?_ ?_
  · intro op h _
    simp [DBC.processOp, h]
  · intro op h1 h2 hrel
    simp [hasRelOp, h1, h2] at hrel
  · intro op h1 h2 hrel
    simp [hasRelOp, h1, h2] at hrel
  · intro op h1 h2 ops hops ih hrel
    have hp : DBC.processOp env cn oid key op = DBC.processOps env cn oid key ops := by
      simp only [DBC.processOp, h2, if_neg h1]
      split
      · next ops' heq =>
        rw [hops] at heq
        simp at heq
        rw [heq]
      · next hne => exact (hne ops hops).elim
    have hq : hasRelOp op = hasRelOpList ops := by
      simp only [hasRelOp, h2, if_neg h1]
      split
      · next ops' heq =>
        rw [hops] at heq
        simp at heq
        rw [heq]
      · next hne => exact (hne ops hops).elim
    rw [hp]
    rw [hq] at hrel
    exact ih hrel
  · intro op h1 h2 hno _
    simp only [DBC.processOp, h2, if_neg h1]
  · intro op h1 h2 h3 h4 _
    rw [DBC.processOp.eq_def, if_neg h1]
    split
    · next heq => exact (h2 heq).elim
    · next heq => exact (h3 heq).elim
    · next heq => exact (h4 heq).elim
    · rfl
  · intro _
    simp [DBC.processOps]
  · intro x xs e evs dm hx ih hrel
    have hx0 : hasRelOp x = false := by
      simp only [hasRelOpList, Bool.or_eq_false_iff] at hrel
      exact hrel.1
    rw [ih hx0] at hx
    cases hx
  · intro x xs evs dm hx oe evs2 dm2 hxs ih1 ih2 hrel
    simp only [hasRelOpList, Bool.or_eq_false_iff] at hrel
    have e1 := ih1 hrel.1
    have e2 := ih2 hrel.2
    rw [hx] at e1
    rw [hxs] at e2
    injection e1 with e1a e1b
    injection e1b with e1b e1c
    injection e2 with e2a e2b
    injection e2b with e2b e2c
    subst e1b
    subst e1c
    subst e2a
    subst e2b
    subst e2c
    simp [DBC.processOps, hx, hxs]

/-- An update payload none of whose fields mentions a relation mutation
passes through `handleRelationUpdates` unchanged, with no scheduled
edge mutations. -/
theorem handleRelationUpdates_norel (env : Env) (cn : String) (oid : JVal)
    (fs : List (String × JVal)) (h : ∀ kv ∈ fs, hasRelOp kv.2 = false) :
    DBC.handleRelationUpdates env cn oid (.obj fs) = (.ok (.obj fs), []) := by
  have hfold : ∀ (l : List (String × JVal)) (evs : List Event) (dm : List String),
      (∀ kv ∈ l, hasRelOp kv.2 = false) →
      (l.foldl (fun (acc : Option PErr × List Event × List String) (kv : String × JVal) =>
          match acc with
          | (some e, evs, dm) => (some e, evs, dm)
          | (none, evs, dm) =>
            let (oe, evs2, dm2) := DBC.processOp env cn
              (if ((JVal.obj fs).getD "objectId").truthy
               then (JVal.obj fs).getD "objectId" else oid) kv.1 kv.2
            (oe, evs ++ evs2, dm ++ dm2)) (none, evs, dm)) = (none, evs, dm) := by
    intro l
    induction l with
    | nil =>
      intro evs dm _
      rfl
    | cons kv rest ih =>
      intro evs dm hl
      rw [List.foldl_cons]
      rw [processOp_norel env cn _ kv.1 kv.2 (hl kv (by simp))]
      simp only [List.append_nil]
      exact ih evs dm (fun kv' hm => hl kv' (by simp [hm]))
  simp only [DBC.handleRelationUpdates]
  rw [hfold fs [] [] h]
  rfl

/-- The operator-partitioning fold of `transformUpdate`: it appends the
`Increment` fields (as amount pairs), the `Delete` fields, and the
remaining fields to the three accumulators, in order. -/
theorem transformUpdate_fold_spec :
    ∀ (fs i u s : List (String × JVal)),
    (fs.foldl (fun (acc : List (String × JVal) × List (String × JVal) × List (String × JVal))
        (kv : String × JVal) =>
      let (incs, unsets, sets) := acc
      match kv.2.get "__op" with
      | some (.str "Increment") => (incs ++ [(kv.1, kv.2.getD "amount")], unsets, sets)
      | some (.str "Delete") => (incs, unsets ++ [(kv.1, .num 1)], sets)
      | _ => (incs, unsets, sets ++ [kv])) (i, u, s))
      = (i ++ (fs.filter (fun kv => isIncrementOp kv.2)).map
            (fun kv => (kv.1, kv.2.getD "amount")),
         u ++ (fs.filter (fun kv => isDeleteOp kv.2)).map (fun kv => (kv.1, JVal.num 1)),
         s ++ fs.filter (fun kv => !isIncrementOp kv.2 && !isDeleteOp kv.2)) := by
  intro fs
  induction fs with
  | nil =>
    intro i u s
    simp
  | cons kv rest ih =>
    intro i u s
    rw [List.foldl_cons]
    rcases hop : kv.2.get "__op" with _ | v
    · simp only [hop, isIncrementOp, isDeleteOp]
      rw [ih]
      simp [List.filter_cons, isIncrementOp, isDeleteOp, hop, List.append_assoc]
    · cases v with
      | str s' =>
        by_cases hs1 : s' = "Increment"
        · subst hs1
          simp only [hop]
          rw [ih]
          simp [List.filter_cons, isIncrementOp, isDeleteOp, hop, List.append_assoc]
        · by_cases hs2 : s' = "Delete"
          · subst hs2
            simp only [hop]
            rw [ih]
            simp [List.filter_cons, isIncrementOp, isDeleteOp, hop, List.append_assoc]
          · simp only [hop]
            rw [show (match some (JVal.str s') with
                | some (JVal.str "Increment") =>
                    (i ++ [(kv.1, kv.2.getD "amount")], u, s)
                | some (JVal.str "Delete") => (i, u ++ [(kv.1, JVal.num 1)], s)
                | _ => (i, u, s ++ [kv])) = (i, u, s ++ [kv]) by
              split
              · next heq => injection heq with h'; injection h' with h''; exact (hs1 h'').elim
              · next heq => injection heq with h'; injection h' with h''; exact (hs2 h'').elim
              · rfl]
            rw [ih]
            simp [List.filter_cons, isIncrementOp, isDeleteOp, hop, hs1, hs2,
              List.append_assoc]
      | null =>
        simp only [hop]
        rw [ih]
        simp [List.filter_cons, isIncrementOp, isDeleteOp, hop, List.append_assoc]
      | undef =>
        simp only [hop]
        rw [ih]
        simp [List.filter_cons, isIncrementOp, isDeleteOp, hop, List.append_assoc]
      | bool b =>
        simp only [hop]
        rw [ih]
        simp [List.filter_cons, isIncrementOp, isDeleteOp, hop, List.append_assoc]
      | num n =>
        simp only [hop]
        rw [ih]
        simp [List.filter_cons, isIncrementOp, isDeleteOp, hop, List.append_assoc]
      | arr xs =>
        simp only [hop]
        rw [ih]
        simp [List.filter_cons, isIncrementOp, isDeleteOp, hop, List.append_assoc]
      | obj fs2 =>
        simp only [hop]
        rw [ih]
        simp [List.filter_cons, isIncrementOp, isDeleteOp, hop, List.append_assoc]

/-- The `$inc` member of a translated update: present exactly when the
payload has `Increment` fields, and then mapping each such key to its
amount. -/
theorem transformUpdate_get_inc (fs : List (String × JVal)) :
    (transformUpdate (.obj fs)).get "$inc"
      = (if (fs.filter (fun kv => isIncrementOp kv.2)).isEmpty then none
         else some (.obj ((fs.filter (fun kv => isIncrementOp kv.2)).map
             (fun kv => (kv.1, kv.2.getD "amount"))))) := by
  simp only [transformUpdate]
  rw [transformUpdate_fold_spec fs [] [] []]
  simp only [List.nil_append]
  rcases hF : fs.filter (fun kv => isIncrementOp kv.2) with _ | ⟨p, prest⟩
  · simp only [hF, List.map_nil, List.isEmpty_nil, if_true]
    rcases hD : fs.filter (fun kv => isDeleteOp kv.2) with _ | ⟨d, drest⟩ <;>
      rcases hS : fs.filter (fun kv => !isIncrementOp kv.2 && !isDeleteOp kv.2)
        with _ | ⟨t, trest⟩ <;>
      simp [hD, hS, JVal.get, lookupF]
  · simp [hF, JVal.get, lookupF]

/-- **C8.** For a (privileged) update none of whose fields mentions a
relation mutation, when the store's find-and-update matches and answers
with the post-mutation document, `update` resolves to an object mapping
exactly the `Increment`-bearing field keys to those fields' values in
the post-mutation document — the store-computed post-increment values,
not the deltas. -/
theorem update_increment_returns_post_values (env : Env) (cn : String)
    (q : JVal) (fs : List (String × JVal)) (doc : JVal) (opts : Options)
    (hmaster : opts.acl = none)
    (hnorel : ∀ kv ∈ fs, hasRelOp kv.2 = false)
    (hdoc : env.findOneAndUpdateRes cn (env.transformWhere cn q)
        (transformUpdate (.obj fs)) = some doc) :
    (DBC.update env cn q (.obj fs) opts).1
      = .ok (.obj ((incrementKeys (.obj fs)).map (fun k => (k, doc.getD k)))) := by
  simp only [DBC.update, hmaster, Option.isNone_none, Bool.not_true, Bool.false_and,
    Bool.false_eq_true, if_false]
  rw [handleRelationUpdates_norel env cn _ fs hnorel]
  simp only
  rw [hdoc]
  simp only
  rw [transformUpdate_get_inc]
  rcases hF : fs.filter (fun kv => isIncrementOp kv.2) with _ | ⟨p, prest⟩
  · simp [hF, incrementKeys]
  · simp [hF, incrementKeys, List.map_map, Function.comp]

/-- **C8, witness.** The spec's worked example: incrementing `count` by
1 on the counter object returns `{count: 42}`, the store's
post-increment value. -/
theorem update_increment_returns_post_values_witness :
    (DBC.update counterEnv "Counter" (.obj [("objectId", .str "c1")])
        (.obj [("count", .obj [("__op", .str "Increment"), ("amount", .num 1)])]) {}).1
      = .ok (.obj [("count", .num 42)]) := by
  refine (update_increment_returns_post_values counterEnv "Counter"
    (.obj [("objectId", .str "c1")])
    [("count", .obj [("__op", .str "Increment"), ("amount", .num 1)])]
    (.obj [("objectId", .str "c1"), ("count", .num 42)]) {} rfl ?_ rfl).trans ?_
  · intro kv hkv
    simp at hkv
    rw [hkv]
    simp [hasRelOp, JVal.get, JVal.truthy, lookupF]
  · simp [incrementKeys, isIncrementOp, JVal.get, JVal.getD, lookupF]

/-- **C9.** On a query carrying a `$relatedTo` clause (and no `$or`),
`reduceRelationKeys` replaces the query's `objectId` constraint
entirely with `{$in: priorIn ++ relatedIds}`, where `priorIn` is the
previous `objectId.$in` list when one is present and `[]` otherwise —
an `objectId` constraint of any other shape (such as a plain string
equality) is discarded rather than intersected — after one join-table
read of the named relation. -/
theorem relatedTo_replaces_objectId_entirely (env : Env) (className : String)
    (q rt : JVal) (cls k : String)
    (hor : (q.getD "$or").truthy = false)
    (hrt : q.getD "$relatedTo" = rt)
    (hrtt : rt.truthy = true)
    (hcls : (rt.getD "object").getD "className" = .str cls)
    (hkey : rt.getD "key" = .str k) :
    DBC.reduceRelationKeys env className q
      = ((q.del "$relatedTo").set "objectId"
           (.obj [("$in", .arr (priorInOf (q.getD "objectId")
              ++ (DBC.relatedIds env cls k ((rt.getD "object").getD "objectId")).1))]),
         [.joinRead (joinTableName cls k)]) := by
  exact reduceRelationKeysAux_relatedTo env className (jsize q + 1) q rt cls k
    (by omega) hor hrt hrtt hcls hkey

/-- **C9, witness.** A query holding both a plain string `objectId`
equality and the worked example's `$relatedTo` clause: the string
constraint is discarded and `objectId` becomes `{$in: ["u1","u2"]}`. -/
theorem relatedTo_replaces_objectId_entirely_witness :
    DBC.reduceRelationKeys likesEnv "User"
        (.obj [("objectId", .str "zzz"), ("$relatedTo", relatedToClause)])
      = (.obj [("objectId", .obj [("$in", .arr [.str "u1", .str "u2"])])],
         [.joinRead "_Join:likes:Post"]) := by
  refine (relatedTo_replaces_objectId_entirely likesEnv "User"
    (.obj [("objectId", .str "zzz"), ("$relatedTo", relatedToClause)])
    relatedToClause "Post" "likes" rfl rfl rfl rfl rfl).trans ?_
  simp [relatedToClause, DBC.relatedIds, likesEnv, priorInOf, JVal.get, JVal.getD,
    JVal.del, JVal.set, lookupF, setF, joinTableName]

/-- **C7.** `MongoCollection.find`: a successful raw find is returned
as-is; an error outside the missing-geo-index class (wrong code or no
geoNear match) propagates unchanged after a single raw find; a
missing-geo-index error naming a field leads to exactly one `'2d'`
index creation on that field and exactly one retry, whose outcome —
success or error — is returned unchanged. -/
theorem mongo_find_geo_index_retry :
    (∀ c docs, c.firstFind = .ok docs →
      MongoCollection.find c = (.ok docs, [.rawFind])) ∧
    (∀ c e, c.firstFind = .error e → (e.code ≠ 17007 ∨ e.geoNearMatch = false) →
      MongoCollection.find c = (.err e, [.rawFind])) ∧
    (∀ c e k, c.firstFind = .error e → e.code = 17007 → e.geoNearMatch = true →
      e.fieldMatch = some k → k ≠ "" →
      MongoCollection.find c
        = ((match c.findAfterIndex with
            | .ok docs => FindResult.ok docs
            | .error e2 => FindResult.err e2),
           [.rawFind, .createIndex k "2d", .rawFind])) := by
  refine ⟨?_, ?_, ?_⟩
  · intro c docs h
    simp [MongoCollection.find, h]
  · intro c e h hout
    have hc : (e.code != 17007 || !e.geoNearMatch) = true := by
      rcases hout with h1 | h2
      · simp [bne_iff_ne, h1]
      · simp [h2]
    simp [MongoCollection.find, h, hc]
  · intro c e k h hcode hgeo hfield hk
    have hc : (e.code != 17007 || !e.geoNearMatch) = false := by
      simp [hcode, hgeo]
    have hke : (k == "") = false := by
      simp [hk]
    cases hf : c.findAfterIndex with
    | ok docs => simp [MongoCollection.find, h, hc, hfield, hke, hf]
    | error e2 => simp [MongoCollection.find, h, hc, hfield, hke, hf]

/-- **C7, witness.** A non-geo error (code 11000) propagates unchanged;
a geo-index error naming `location` creates the `2d` index and the
retried find's documents are returned. -/
theorem mongo_find_geo_index_retry_witness :
    MongoCollection.find
        { firstFind := .error { code := 11000, geoNearMatch := false, fieldMatch := none },
          findAfterIndex := .ok [] }
      = (.err { code := 11000, geoNearMatch := false, fieldMatch := none }, [.rawFind]) ∧
    MongoCollection.find
        { firstFind := .error { code := 17007, geoNearMatch := true,
                                fieldMatch := some "location" },
          findAfterIndex := .ok [.obj [("objectId", .str "g1")]] }
      = (.ok [.obj [("objectId", .str "g1")]],
         [.rawFind, .createIndex "location" "2d", .rawFind]) := by
  constructor
  · exact mongo_find_geo_index_retry.2.1
      { firstFind := .error { code := 11000, geoNearMatch := false, fieldMatch := none },
        findAfterIndex := .ok [] }
      { code := 11000, geoNearMatch := false, fieldMatch := none } rfl (by norm_num)
  · exact mongo_find_geo_index_retry.2.2
      { firstFind := .error { code := 17007, geoNearMatch := true,
                              fieldMatch := some "location" },
        findAfterIndex := .ok [.obj [("objectId", .str "g1")]] }
      { code := 17007, geoNearMatch := true, fieldMatch := some "location" }
      "location" rfl rfl rfl rfl (by decide)

end ParseCore
